import Mathlib

/-!
# Verification of the `defenestrate` lexical core

A shallow embedding of the repository's three source files
(`src/tokens.rs`, `src/config.rs`, `src/lib.rs`) together with proofs
about the embedded definitions.

Modelling conventions:
* Byte buffers are `List Nat` (each entry a byte value `< 256`); strings
  (`&str`) are `List Nat` of Unicode codepoints (`Str`).  Offsets are byte
  offsets, exactly as in the source.
* The regex `\b(\p{Alphabetic}|\d|_)+\b` of `Symbol::parse` is embedded as a
  byte-level scanner: at each position one UTF-8 codepoint is decoded and a
  match is a maximal run of codepoints in the class
  "Alphabetic or decimal digit (Nd) or underscore".  The Unicode `Alphabetic`,
  `Nd`, lowercase and uppercase property tables are restricted to the script
  ranges exercised here (ASCII, Latin-1/Latin Extended, Greek, Cyrillic,
  Arabic-Indic and Devanagari digits); no character outside the token class is
  treated as a regex word character, under which restriction the `\b` anchors
  coincide with run-maximality.
* Rust panics (in particular the byte-index string slicing of
  `split_symbol`) are modelled by `Option`, `none` standing for a panic.
* Fallible constructors (`failure::Error` results) are modelled by `Except`
  with an explicit error enumeration.
* `HashMap<KString, KString>` is modelled extensionally as
  `Str → Option Str`.
-/

namespace Defenestrate

/-- Strings (`&str`) as lists of Unicode codepoints. -/
abbrev Str := List Nat

/-- Number of bytes of the UTF-8 encoding of a codepoint. -/
def utf8Len (c : Nat) : Nat :=
  if c < 0x80 then 1 else if c < 0x800 then 2 else if c < 0x10000 then 3 else 4

/-- UTF-8 continuation byte test. -/
def isCont (b : Nat) : Bool := 0x80 ≤ b && b < 0xC0

/-- Continuation of a two-byte UTF-8 sequence with lead byte `b`. -/
def decodeTail2 (b : Nat) : List Nat → Option (Nat × Nat)
  | b2 :: _ =>
    if isCont b2 then some ((b - 0xC0) * 0x40 + (b2 - 0x80), 2) else none
  | _ => none

/-- Continuation of a three-byte UTF-8 sequence with lead byte `b`. -/
def decodeTail3 (b : Nat) : List Nat → Option (Nat × Nat)
  | b2 :: b3 :: _ =>
    if isCont b2 && isCont b3 then
      let cp := (b - 0xE0) * 0x1000 + (b2 - 0x80) * 0x40 + (b3 - 0x80)
      if 0x800 ≤ cp ∧ ¬ (0xD800 ≤ cp ∧ cp < 0xE000) then some (cp, 3)
      else none
    else none
  | _ => none

/-- Continuation of a four-byte UTF-8 sequence with lead byte `b`. -/
def decodeTail4 (b : Nat) : List Nat → Option (Nat × Nat)
  | b2 :: b3 :: b4 :: _ =>
    if isCont b2 && isCont b3 && isCont b4 then
      let cp := (b - 0xF0) * 0x40000 + (b2 - 0x80) * 0x1000 +
        (b3 - 0x80) * 0x40 + (b4 - 0x80)
      if 0x10000 ≤ cp ∧ cp ≤ 0x10FFFF then some (cp, 4) else none
    else none
  | _ => none

/-- Decode one UTF-8 codepoint from the head of a byte list, returning the
codepoint and the number of bytes consumed.  Overlong encodings, surrogates
and out-of-range codepoints are rejected, as in Rust's `str` validation. -/
def utf8DecodeOne : List Nat → Option (Nat × Nat)
  | [] => none
  | b :: rest =>
    if b < 0x80 then some (b, 1)
    else if b < 0xC2 then none
    else if b < 0xE0 then decodeTail2 b rest
    else if b < 0xF0 then decodeTail3 b rest
    else if b < 0xF5 then decodeTail4 b rest
    else none

/-- Decode a whole byte list to codepoints, failing on any invalid byte;
`fuel` bounds the recursion depth (one unit per decoded codepoint). -/
def utf8DecodeAllF : Nat → List Nat → Option (List Nat)
  | _, [] => some []
  | 0, _ :: _ => none
  | fuel + 1, bs =>
    match utf8DecodeOne bs with
    | some (cp, n) => (utf8DecodeAllF fuel (bs.drop n)).map (fun cps => cp :: cps)
    | none => none

/-- `std::str::from_utf8`, as a total function on byte lists. -/
def utf8Decode (bs : List Nat) : Option (List Nat) := utf8DecodeAllF bs.length bs

/-- UTF-8 encoding of one codepoint. -/
def utf8EncodeChar (c : Nat) : List Nat :=
  if c < 0x80 then [c]
  else if c < 0x800 then [0xC0 + c / 0x40, 0x80 + c % 0x40]
  else if c < 0x10000 then
    [0xE0 + c / 0x1000, 0x80 + (c / 0x40) % 0x40, 0x80 + c % 0x40]
  else
    [0xF0 + c / 0x40000, 0x80 + (c / 0x1000) % 0x40, 0x80 + (c / 0x40) % 0x40,
      0x80 + c % 0x40]

/-- UTF-8 encoding of a string (`str::as_bytes`). -/
def utf8Encode (s : Str) : List Nat := (s.map utf8EncodeChar).flatten

/-- Total UTF-8 byte size of a string (`str::len`). -/
def strBytes (s : Str) : Nat := (s.map utf8Len).sum

/-- Unicode `Alphabetic` property (`\p{Alphabetic}`), restricted to the
script ranges exercised by this development: ASCII and Latin-1 letters,
Latin Extended, Greek, Cyrillic and the CJK unified ideographs. -/
def isAlphabetic (c : Nat) : Bool :=
  (0x41 ≤ c && c ≤ 0x5A) || (0x61 ≤ c && c ≤ 0x7A) ||
  (0xC0 ≤ c && c ≤ 0xD6) || (0xD8 ≤ c && c ≤ 0xF6) || (0xF8 ≤ c && c ≤ 0x2AF) ||
  (0x391 ≤ c && c ≤ 0x3A1) || (0x3A3 ≤ c && c ≤ 0x3C9) ||
  (0x410 ≤ c && c ≤ 0x44F) || (0x4E00 ≤ c && c ≤ 0x9FFF)

/-- Unicode decimal digit (`\d`, category `Nd`), restricted to ASCII,
Arabic-Indic and Devanagari digits. -/
def isNd (c : Nat) : Bool :=
  (0x30 ≤ c && c ≤ 0x39) || (0x660 ≤ c && c ≤ 0x669) || (0x966 ≤ c && c ≤ 0x96F)

/-- `char::is_ascii_digit`. -/
def isAsciiDigit (c : Nat) : Bool := 0x30 ≤ c && c ≤ 0x39

/-- `char::is_lowercase` (Unicode `Lowercase`), restricted as above. -/
def isLowercase (c : Nat) : Bool :=
  (0x61 ≤ c && c ≤ 0x7A) || (0xDF ≤ c && c ≤ 0xF6) || (0xF8 ≤ c && c ≤ 0xFF) ||
  (0x3B1 ≤ c && c ≤ 0x3C9) || (0x430 ≤ c && c ≤ 0x44F)

/-- `char::is_uppercase` (Unicode `Uppercase`), restricted as above. -/
def isUppercase (c : Nat) : Bool :=
  (0x41 ≤ c && c ≤ 0x5A) || (0xC0 ≤ c && c ≤ 0xD6) || (0xD8 ≤ c && c ≤ 0xDE) ||
  (0x391 ≤ c && c ≤ 0x3A1) || (0x3A3 ≤ c && c ≤ 0x3AB) ||
  (0x410 ≤ c && c ≤ 0x42F)

/-- The token character class of the regex `(\p{Alphabetic}|\d|_)`. -/
def inClass (c : Nat) : Bool := isAlphabetic c || isNd c || c == 0x5F

/-- `tokens::Symbol`: a token together with its byte offset. -/
structure Symbol where
  token : Str
  offset : Nat
deriving DecidableEq, Repr

/-- Consume the maximal run of class codepoints at the head of `bs`,
returning the consumed bytes and their count (`fuel` bounds recursion). -/
def takeRun : Nat → List Nat → List Nat × Nat
  | 0, _ => ([], 0)
  | fuel + 1, bs =>
    match utf8DecodeOne bs with
    | some (cp, n) =>
      if inClass cp then
        let r := takeRun fuel (bs.drop n)
        (bs.take n ++ r.1, n + r.2)
      else ([], 0)
    | none => ([], 0)

/-- Scan a byte buffer for the matches of `\b(\p{Alphabetic}|\d|_)+\b`
(`Regex::find_iter`): each match is reported as its start offset (relative
to the scan origin `pos`) together with its bytes. -/
def scanRuns : Nat → List Nat → Nat → List (Nat × List Nat)
  | 0, _, _ => []
  | fuel + 1, bs, pos =>
    match utf8DecodeOne bs with
    | some (cp, n) =>
      if inClass cp then
        let r := takeRun (fuel + 1) bs
        (pos, r.1) :: scanRuns fuel (bs.drop r.2) (pos + r.2)
      else scanRuns fuel (bs.drop n) (pos + n)
    | none =>
      match bs with
      | [] => []
      | _ :: rest => scanRuns fuel rest (pos + 1)

/-- All regex matches of a buffer, with byte offsets from 0. -/
def findRuns (content : List Nat) : List (Nat × List Nat) :=
  scanRuns content.length content 0

/-- `Symbol::parse`: the regex matches of the buffer, each re-decoded as
UTF-8 (`filter_map` over `std::str::from_utf8(..).ok()`); undecodable
matches are silently skipped. -/
def Symbol.parse (content : List Nat) : List Symbol :=
  (findRuns content).filterMap fun r =>
    (utf8Decode r.2).map fun cps => { token := cps, offset := r.1 }

/-- The three validation errors of the strict constructors
(`failure::format_err!` messages in `Symbol::new` / `Word::new`). -/
inductive TokenError where
  | noneFound
  | paddingFound
  | moreThanOne
deriving DecidableEq, Repr

/-- `Symbol::new`: re-extract from the given text and demand exactly one
token starting at byte 0; on success attach the caller-supplied offset. -/
def Symbol.new (token : Str) (offset : Nat) : Except TokenError Symbol :=
  match Symbol.parse (utf8Encode token) with
  | [] => .error .noneFound
  | item :: rest =>
    if item.offset ≠ 0 then .error .paddingFound
    else
      let item2 : Symbol := { item with offset := item.offset + offset }
      if rest.isEmpty then .ok item2 else .error .moreThanOne

/-- `tokens::WordMode`: tri-state case mode of the split scan. -/
inductive WordMode where
  | Boundary
  | Lowercase
  | Uppercase
  | Number
deriving DecidableEq, BEq, Repr

/-- `WordMode::classify`. -/
def WordMode.classify (c : Nat) : WordMode :=
  if isLowercase c then .Lowercase
  else if isUppercase c then .Uppercase
  else if isAsciiDigit c then .Number
  else .Boundary

/-- `tokens::Word`: a sub-word of a symbol with its byte offset. -/
structure Word where
  token : Str
  offset : Nat
deriving DecidableEq, Repr

/-- Rust byte slicing `&s[a..]`: drop the first `a` bytes; `none` models the
panic when `a` is not a character boundary (or exceeds the length). -/
def sliceFrom : Str → Nat → Option Str
  | s, 0 => some s
  | [], _ + 1 => none
  | c :: rest, a + 1 =>
    if utf8Len c ≤ a + 1 then sliceFrom rest (a + 1 - utf8Len c) else none

/-- Take the first `a` bytes of a string; `none` models the panic when `a`
is not a character boundary (or exceeds the length). -/
def sliceLen : Str → Nat → Option Str
  | _, 0 => some []
  | [], _ + 1 => none
  | c :: rest, a + 1 =>
    if utf8Len c ≤ a + 1 then
      (sliceLen rest (a + 1 - utf8Len c)).map (fun w => c :: w)
    else none

/-- Rust byte slicing `&s[a..b]`; `none` models the slicing panic. -/
def slice (s : Str) (a b : Nat) : Option Str :=
  if a ≤ b then (sliceFrom s a).bind fun t => sliceLen t (b - a) else none

/-- First match arm of `split_symbol`'s boundary detection (the current
character is the last of the current word), exactly the source's patterns
`(_, _, Boundary) | (_, Lowercase, Number) | (_, Uppercase, Number) |
(_, Number, Lowercase) | (_, Number, Uppercase) | (_, Lowercase, Uppercase)`. -/
def boundaryAfterCur : WordMode → WordMode → Bool
  | _, .Boundary => true
  | .Lowercase, .Number => true
  | .Uppercase, .Number => true
  | .Number, .Lowercase => true
  | .Number, .Uppercase => true
  | .Lowercase, .Uppercase => true
  | _, _ => false

/-- Second match arm of `split_symbol` (the current character starts the
next word — the acronym/titlecase split), the source's pattern
`(Uppercase, Uppercase, Lowercase)`. -/
def boundaryBeforeCur : WordMode → WordMode → WordMode → Bool
  | .Uppercase, .Uppercase, .Lowercase => true
  | _, _, _ => false

/-- The `while let` loop of `split_symbol`.  Arguments after `offset`:
remaining characters, byte index `i` of the head character, `start`, and
`start_mode`.  `none` models a Rust slicing panic. -/
def splitLoop (symbol : Str) (offset : Nat) :
    Str → Nat → Nat → WordMode → Option (List Word)
  | [], _, _, _ => some []
  | c :: rest, i, start, start_mode =>
    let cur_mode := WordMode.classify c
    if cur_mode = .Boundary then
      let start2 := if start = i then start + 1 else start
      splitLoop symbol offset rest (i + utf8Len c) start2 start_mode
    else
      match rest with
      | next :: _ =>
        let next_i := i + utf8Len c
        let next_mode := WordMode.classify next
        if boundaryAfterCur cur_mode next_mode then
          match slice symbol start next_i with
          | some w => (splitLoop symbol offset rest next_i next_i .Boundary).map
              (fun ws => ⟨w, start + offset⟩ :: ws)
          | none => none
        else if boundaryBeforeCur start_mode cur_mode next_mode then
          match slice symbol start i with
          | some w => (splitLoop symbol offset rest next_i i .Boundary).map
              (fun ws => ⟨w, start + offset⟩ :: ws)
          | none => none
        else
          splitLoop symbol offset rest next_i start cur_mode
      | [] =>
        match sliceFrom symbol start with
        | some w => some [⟨w, start + offset⟩]
        | none => none

/-- `tokens::split_symbol`. -/
def split_symbol (symbol : Str) (offset : Nat) : Option (List Word) :=
  splitLoop symbol offset symbol 0 0 .Boundary

/-- One step of `grep_searcher::LineIter`: the first line (including its
terminating linefeed, if any) and the remainder of the buffer. -/
def breakLine : List Nat → List Nat × List Nat
  | [] => ([], [])
  | b :: rest =>
    if b == 10 then ([10], rest)
    else
      let r := breakLine rest
      (b :: r.1, r.2)

/-- `grep_searcher::LineIter::new(b'\n', buffer)`: split a buffer into its
physical lines, each keeping its terminator (`fuel` bounds recursion). -/
def splitLines : Nat → List Nat → List (List Nat)
  | 0, _ => []
  | _, [] => []
  | fuel + 1, bs => (breakLine bs).1 :: splitLines fuel (breakLine bs).2

/-- `report::Message` (the `path` and `non_exhaustive` fields, pure
plumbing, are omitted). -/
structure Message where
  line : List Nat
  line_num : Nat
  col_num : Nat
  word : Str
  correction : Str
deriving DecidableEq, Repr

/-- `process_file` from `src/lib.rs`, with the file contents already read
into `buffer` and the dictionary's `correct_str` and the report sink
abstracted: the returned list is the sequence of messages passed to
`report`, in order.  (The `from_utf8` re-check on `token.token` is the
identity here because `Symbol.token` is already a decoded string.) -/
def process_file (dictionary : Str → Option Str) (buffer : List Nat) :
    List Message :=
  ((splitLines buffer.length buffer).enum).flatMap fun p =>
    (Symbol.parse p.2).filterMap fun token =>
      (dictionary token.token).map fun correction =>
        { line := p.2, line_num := p.1 + 1, col_num := token.offset,
          word := token.token, correction := correction }

/-- The byte contents of the one-line file `"HTML is rendred here"`. -/
def bufC1 : List Nat :=
  [72, 84, 77, 76, 32, 105, 115, 32, 114, 101, 110, 100, 114, 101, 100, 32,
    104, 101, 114, 101]

/-- The codepoints of `"rendred"`. -/
def misspelledWord : Str := [114, 101, 110, 100, 114, 101, 100]

/-- The codepoints of `"rendered"`. -/
def correctedWord : Str := [114, 101, 110, 100, 101, 114, 101, 100]

/-- A correction capability mapping `"rendred"` to `"rendered"` and nothing
else. -/
def dictC1 (w : Str) : Option Str :=
  if w = misspelledWord then some correctedWord else none

/-- `config::Locale`. -/
inductive Locale where
  | En
  | EnUs
  | EnGb
  | EnCa
  | EnAu
deriving DecidableEq, Repr

/-- `config::Walk`: six optional booleans. -/
structure Walk where
  ignore_hidden : Option Bool
  ignore_files : Option Bool
  ignore_dot : Option Bool
  ignore_vcs : Option Bool
  ignore_global : Option Bool
  ignore_parent : Option Bool
deriving DecidableEq, Repr

/-- `Walk::default()` (derived `Default`): every field unset. -/
def Walk.defaultWalk : Walk := ⟨none, none, none, none, none, none⟩

/-- Effective `Walk::ignore_hidden()`. -/
def Walk.ignore_hidden_eff (w : Walk) : Bool := w.ignore_hidden.getD true

/-- Effective `Walk::ignore_dot()`. -/
def Walk.ignore_dot_eff (w : Walk) : Bool :=
  (w.ignore_dot.or w.ignore_files).getD true

/-- Effective `Walk::ignore_vcs()`. -/
def Walk.ignore_vcs_eff (w : Walk) : Bool :=
  (w.ignore_vcs.or w.ignore_files).getD true

/-- Effective `Walk::ignore_global()`. -/
def Walk.ignore_global_eff (w : Walk) : Bool :=
  ((w.ignore_global.or w.ignore_vcs).or w.ignore_files).getD true

/-- Effective `Walk::ignore_parent()`. -/
def Walk.ignore_parent_eff (w : Walk) : Bool :=
  (w.ignore_parent.or w.ignore_files).getD true

/-- `Walk::from_defaults`. -/
def Walk.from_defaults : Walk :=
  let empty := Walk.defaultWalk
  { ignore_hidden := some empty.ignore_hidden_eff
    ignore_files := some true
    ignore_dot := some empty.ignore_dot_eff
    ignore_vcs := some empty.ignore_vcs_eff
    ignore_global := some empty.ignore_global_eff
    ignore_parent := some empty.ignore_parent_eff }

/-- `Walk::update`: sequential field updates, with the cascade resets
(`ignore_files` clears the four finer flags; `ignore_vcs` clears
`ignore_global`). -/
def Walk.update (self source : Walk) : Walk :=
  let s1 := match source.ignore_hidden with
    | some v => { self with ignore_hidden := some v }
    | none => self
  let s2 := match source.ignore_files with
    | some v => { s1 with ignore_files := some v, ignore_dot := none, ignore_vcs := none, ignore_global := none, ignore_parent := none }
    | none => s1
  let s3 := match source.ignore_dot with
    | some v => { s2 with ignore_dot := some v }
    | none => s2
  let s4 := match source.ignore_vcs with
    | some v => { s3 with ignore_vcs := some v, ignore_global := none }
    | none => s3
  let s5 := match source.ignore_global with
    | some v => { s4 with ignore_global := some v }
    | none => s4
  match source.ignore_parent with
  | some v => { s5 with ignore_parent := some v }
  | none => s5

/-- `config::TokenizerConfig`. -/
structure TokenizerConfig where
  ignore_hex : Option Bool
  identifier_leading_digits : Option Bool
  identifier_leading_chars : Option Str
  identifier_include_digits : Option Bool
  identifier_include_chars : Option Str
deriving DecidableEq, Repr

/-- `TokenizerConfig::default()`: every field unset. -/
def TokenizerConfig.defaultTC : TokenizerConfig := ⟨none, none, none, none, none⟩

/-- Effective `TokenizerConfig::ignore_hex()`. -/
def TokenizerConfig.ignore_hex_eff (t : TokenizerConfig) : Bool :=
  t.ignore_hex.getD true

/-- Effective `TokenizerConfig::identifier_leading_digits()`. -/
def TokenizerConfig.identifier_leading_digits_eff (t : TokenizerConfig) : Bool :=
  t.identifier_leading_digits.getD false

/-- Effective `TokenizerConfig::identifier_leading_chars()` (default `"_"`). -/
def TokenizerConfig.identifier_leading_chars_eff (t : TokenizerConfig) : Str :=
  t.identifier_leading_chars.getD [0x5F]

/-- Effective `TokenizerConfig::identifier_include_digits()`. -/
def TokenizerConfig.identifier_include_digits_eff (t : TokenizerConfig) : Bool :=
  t.identifier_include_digits.getD true

/-- Effective `TokenizerConfig::identifier_include_chars()` (default `"_'"`,
codepoints `[0x5F, 0x27]`). -/
def TokenizerConfig.identifier_include_chars_eff (t : TokenizerConfig) : Str :=
  t.identifier_include_chars.getD [0x5F, 0x27]

/-- `TokenizerConfig::from_defaults`. -/
def TokenizerConfig.from_defaults : TokenizerConfig :=
  let empty := TokenizerConfig.defaultTC
  { ignore_hex := some empty.ignore_hex_eff
    identifier_leading_digits := some empty.identifier_leading_digits_eff
    identifier_leading_chars := some empty.identifier_leading_chars_eff
    identifier_include_digits := some empty.identifier_include_digits_eff
    identifier_include_chars := some empty.identifier_include_chars_eff }

/-- `TokenizerConfig::update`: overlay's explicit fields win. -/
def TokenizerConfig.update (self source : TokenizerConfig) : TokenizerConfig :=
  { ignore_hex := source.ignore_hex.or self.ignore_hex
    identifier_leading_digits :=
      source.identifier_leading_digits.or self.identifier_leading_digits
    identifier_leading_chars :=
      source.identifier_leading_chars.or self.identifier_leading_chars
    identifier_include_digits :=
      source.identifier_include_digits.or self.identifier_include_digits
    identifier_include_chars :=
      source.identifier_include_chars.or self.identifier_include_chars }

/-- `config::DictConfig`; the two `HashMap<KString, KString>` fields are
modelled extensionally as partial maps. -/
structure DictConfig where
  locale : Option Locale
  extend_identifiers : Str → Option Str
  extend_words : Str → Option Str

/-- `DictConfig::default()`: locale unset, empty maps. -/
def DictConfig.defaultDC : DictConfig := ⟨none, fun _ => none, fun _ => none⟩

/-- Effective `DictConfig::locale()` (default `Locale::En`). -/
def DictConfig.locale_eff (d : DictConfig) : Locale := d.locale.getD .En

/-- `DictConfig::from_defaults`. -/
def DictConfig.from_defaults : DictConfig :=
  { locale := some DictConfig.defaultDC.locale_eff
    extend_identifiers := fun _ => none
    extend_words := fun _ => none }

/-- `DictConfig::update`: overlay locale wins; `HashMap::extend` makes
overlay entries overwrite base entries on key collision. -/
def DictConfig.update (self source : DictConfig) : DictConfig :=
  { locale := source.locale.or self.locale
    extend_identifiers := fun k =>
      (source.extend_identifiers k).or (self.extend_identifiers k)
    extend_words := fun k => (source.extend_words k).or (self.extend_words k) }

/-- `config::EngineConfig`. -/
structure EngineConfig where
  binary : Option Bool
  check_filename : Option Bool
  check_file : Option Bool
  tokenizer : Option TokenizerConfig
  dict : Option DictConfig

/-- `EngineConfig::default()`: every field unset. -/
def EngineConfig.defaultEC : EngineConfig := ⟨none, none, none, none, none⟩

/-- Effective `EngineConfig::binary()` (default `false`). -/
def EngineConfig.binary_eff (e : EngineConfig) : Bool := e.binary.getD false

/-- Effective `EngineConfig::check_filename()` (default `true`). -/
def EngineConfig.check_filename_eff (e : EngineConfig) : Bool :=
  e.check_filename.getD true

/-- Effective `EngineConfig::check_file()` (default `true`). -/
def EngineConfig.check_file_eff (e : EngineConfig) : Bool :=
  e.check_file.getD true

/-- `EngineConfig::from_defaults`. -/
def EngineConfig.from_defaults : EngineConfig :=
  let empty := EngineConfig.defaultEC
  { binary := some empty.binary_eff
    check_filename := some empty.check_filename_eff
    check_file := some empty.check_file_eff
    tokenizer := some (empty.tokenizer.getD TokenizerConfig.from_defaults)
    dict := some (empty.dict.getD DictConfig.from_defaults) }

/-- `EngineConfig::update`: scalar fields right-biased; the nested
`tokenizer`/`dict` documents are merged recursively (take, default, update,
put back — the `mem::swap` dance of the source). -/
def EngineConfig.update (self source : EngineConfig) : EngineConfig :=
  { binary := source.binary.or self.binary
    check_filename := source.check_filename.or self.check_filename
    check_file := source.check_file.or self.check_file
    tokenizer := match source.tokenizer with
      | some st => some ((self.tokenizer.getD TokenizerConfig.defaultTC).update st)
      | none => self.tokenizer
    dict := match source.dict with
      | some sd => some ((self.dict.getD DictConfig.defaultDC).update sd)
      | none => self.dict }

/-- `config::Config`: the root document. -/
structure Config where
  files : Walk
  default : EngineConfig

/-- `Config::from_defaults`. -/
def Config.from_defaults : Config :=
  { files := Walk.from_defaults, default := EngineConfig.from_defaults }

/-- `Config::update`. -/
def Config.update (self source : Config) : Config :=
  { files := self.files.update source.files
    default := self.default.update source.default }

/-- Modelled from the spec sentence of C7 (claim as stated): each leaf field
of the merge of the fully-defaulted document with an overlay equals the
overlay's explicit value where set and the compiled-in default elsewhere. -/
def Walk.mergeSpecC7 (ov : Walk) : Walk :=
  { ignore_hidden := ov.ignore_hidden.or (some true)
    ignore_files := ov.ignore_files.or (some true)
    ignore_dot := ov.ignore_dot.or (some true)
    ignore_vcs := ov.ignore_vcs.or (some true)
    ignore_global := ov.ignore_global.or (some true)
    ignore_parent := ov.ignore_parent.or (some true) }

/-- The `Walk` leaf-merge that actually holds: like `Walk.mergeSpecC7`
except that an overlay setting `ignore_files` leaves the four finer flags
unset, and one setting `ignore_vcs` leaves `ignore_global` unset. -/
def Walk.mergeReset (ov : Walk) : Walk :=
  { ignore_hidden := ov.ignore_hidden.or (some true)
    ignore_files := ov.ignore_files.or (some true)
    ignore_dot := ov.ignore_dot.or
      (if ov.ignore_files.isSome then none else some true)
    ignore_vcs := ov.ignore_vcs.or
      (if ov.ignore_files.isSome then none else some true)
    ignore_global := ov.ignore_global.or
      (if ov.ignore_vcs.isSome || ov.ignore_files.isSome then none
        else some true)
    ignore_parent := ov.ignore_parent.or
      (if ov.ignore_files.isSome then none else some true) }

/-- Leaf merge-with-defaults for `TokenizerConfig` (spec reading of C7). -/
def TokenizerConfig.mergeSpecC7 (ov : TokenizerConfig) : TokenizerConfig :=
  { ignore_hex := ov.ignore_hex.or (some true)
    identifier_leading_digits := ov.identifier_leading_digits.or (some false)
    identifier_leading_chars := ov.identifier_leading_chars.or (some [0x5F])
    identifier_include_digits := ov.identifier_include_digits.or (some true)
    identifier_include_chars :=
      ov.identifier_include_chars.or (some [0x5F, 0x27]) }

/-- Leaf merge-with-defaults for `DictConfig` (spec reading of C7): the
default maps are empty, so the merged maps are the overlay's. -/
def DictConfig.mergeSpecC7 (ov : DictConfig) : DictConfig :=
  { locale := ov.locale.or (some .En)
    extend_identifiers := ov.extend_identifiers
    extend_words := ov.extend_words }

/-- Leaf merge-with-defaults for `EngineConfig` (spec reading of C7), with
the flattened tokenizer/dict documents merged leaf-wise. -/
def EngineConfig.mergeSpecC7 (ov : EngineConfig) : EngineConfig :=
  { binary := ov.binary.or (some false)
    check_filename := ov.check_filename.or (some true)
    check_file := ov.check_file.or (some true)
    tokenizer := some
      (TokenizerConfig.mergeSpecC7 (ov.tokenizer.getD TokenizerConfig.defaultTC))
    dict := some (DictConfig.mergeSpecC7 (ov.dict.getD DictConfig.defaultDC)) }

/-- Modelled from the spec sentence of C7, claim as stated: field-wise
overlay-else-default for the whole `Config`. -/
def Config.mergeSpecC7 (ov : Config) : Config :=
  { files := Walk.mergeSpecC7 ov.files
    default := EngineConfig.mergeSpecC7 ov.default }

/-- The merge-with-defaults characterization that actually holds: as
`Config.mergeSpecC7` but with the `Walk` cascade resets. -/
def Config.mergeAmended (ov : Config) : Config :=
  { files := Walk.mergeReset ov.files
    default := EngineConfig.mergeSpecC7 ov.default }

/-- The overlay document witnessing that C7 as stated fails: only
`files.ignore-files = false` is set. -/
def overlayC7 : Config :=
  { files := { Walk.defaultWalk with ignore_files := some false }
    default := EngineConfig.defaultEC }

/-! ## Supporting lemmas -/

theorem utf8Len_pos (c : Nat) : 1 ≤ utf8Len c := by
  unfold utf8Len
  split
  · exact Nat.le_refl 1
  · split
    · omega
    · split <;> omega

theorem isCont_spec {b : Nat} (h : isCont b = true) : 0x80 ≤ b ∧ b < 0xC0 := by
  simpa [isCont] using h

/-- Soundness of the one-codepoint decoder: it consumes between one byte
and the whole list, the consumed count is the UTF-8 size of the decoded
codepoint (no overlong forms), and the result only depends on the consumed
bytes. -/
theorem utf8DecodeOne_spec : ∀ {bs : List Nat} {cp n : Nat},
    utf8DecodeOne bs = some (cp, n) →
    1 ≤ n ∧ n ≤ bs.length ∧ utf8Len cp = n ∧
      ∀ t, utf8DecodeOne (bs.take n ++ t) = some (cp, n)
  | [], cp, n, h => by simp [utf8DecodeOne] at h
  | b :: rest, cp, n, h => by
    simp only [utf8DecodeOne] at h
    by_cases h1 : b < 0x80
    · rw [if_pos h1] at h
      obtain ⟨rfl, rfl⟩ : b = cp ∧ 1 = n := by
        simpa using h
      refine ⟨Nat.le_refl 1, by simp, by simp [utf8Len, h1], fun t => ?_⟩
      simp [utf8DecodeOne, h1]
    · rw [if_neg h1] at h
      by_cases h2 : b < 0xC2
      · rw [if_pos h2] at h
        exact absurd h (by simp)
      · rw [if_neg h2] at h
        by_cases h3 : b < 0xE0
        · rw [if_pos h3] at h
          match rest with
          | [] => simp [decodeTail2] at h
          | b2 :: rest2 =>
            simp only [decodeTail2] at h
            by_cases hc2 : isCont b2
            · rw [if_pos hc2] at h
              obtain ⟨rfl, rfl⟩ : (b - 0xC0) * 0x40 + (b2 - 0x80) = cp ∧ 2 = n := by
                simpa using h
              obtain ⟨hc2a, hc2b⟩ := isCont_spec hc2
              refine ⟨by omega, by simp, ?_, fun t => ?_⟩
              · unfold utf8Len
                have : ¬ (b - 0xC0) * 0x40 + (b2 - 0x80) < 0x80 := by omega
                have h800 : (b - 0xC0) * 0x40 + (b2 - 0x80) < 0x800 := by omega
                simp [this, h800]
              · show utf8DecodeOne (b :: b2 :: t) = some ((b - 0xC0) * 0x40 + (b2 - 0x80), 2)
                simp only [utf8DecodeOne, decodeTail2]
                rw [if_neg h1, if_neg h2, if_pos h3, if_pos hc2]
            · rw [if_neg hc2] at h
              exact absurd h (by simp)
        · rw [if_neg h3] at h
          by_cases h4 : b < 0xF0
          · rw [if_pos h4] at h
            match rest with
            | [] => simp [decodeTail3] at h
            | [b2] => simp [decodeTail3] at h
            | b2 :: b3 :: rest3 =>
              simp only [decodeTail3] at h
              by_cases hc23 : isCont b2 && isCont b3
              · rw [if_pos hc23] at h
                by_cases hr : 0x800 ≤ (b - 0xE0) * 0x1000 + (b2 - 0x80) * 0x40 + (b3 - 0x80) ∧
                    ¬ (0xD800 ≤ (b - 0xE0) * 0x1000 + (b2 - 0x80) * 0x40 + (b3 - 0x80) ∧
                      (b - 0xE0) * 0x1000 + (b2 - 0x80) * 0x40 + (b3 - 0x80) < 0xE000)
                · rw [if_pos hr] at h
                  obtain ⟨rfl, rfl⟩ :
                      (b - 0xE0) * 0x1000 + (b2 - 0x80) * 0x40 + (b3 - 0x80) = cp ∧ 3 = n := by
                    simpa using h
                  obtain ⟨hb2, hb3⟩ := Bool.and_eq_true .. |>.mp hc23
                  obtain ⟨hb2a, hb2b⟩ := isCont_spec hb2
                  obtain ⟨hb3a, hb3b⟩ := isCont_spec hb3
                  refine ⟨by omega, by simp, ?_, fun t => ?_⟩
                  · unfold utf8Len
                    have hx : ¬ (b - 0xE0) * 0x1000 + (b2 - 0x80) * 0x40 + (b3 - 0x80) < 0x80 := by
                      omega
                    have hy : ¬ (b - 0xE0) * 0x1000 + (b2 - 0x80) * 0x40 + (b3 - 0x80) < 0x800 := by
                      omega
                    have hz : (b - 0xE0) * 0x1000 + (b2 - 0x80) * 0x40 + (b3 - 0x80) < 0x10000 := by
                      omega
                    simp [hx, hy, hz]
                  · show utf8DecodeOne (b :: b2 :: b3 :: t) =
                        some ((b - 0xE0) * 0x1000 + (b2 - 0x80) * 0x40 + (b3 - 0x80), 3)
                    simp only [utf8DecodeOne, decodeTail3]
                    rw [if_neg h1, if_neg h2, if_neg h3, if_pos h4, if_pos hc23, if_pos hr]
                · rw [if_neg hr] at h
                  exact absurd h (by simp)
              · rw [if_neg hc23] at h
                exact absurd h (by simp)
          · rw [if_neg h4] at h
            by_cases h5 : b < 0xF5
            · rw [if_pos h5] at h
              match rest with
              | [] => simp [decodeTail4] at h
              | [b2] => simp [decodeTail4] at h
              | [b2, b3] => simp [decodeTail4] at h
              | b2 :: b3 :: b4 :: rest4 =>
                simp only [decodeTail4] at h
                by_cases hc234 : isCont b2 && isCont b3 && isCont b4
                · rw [if_pos hc234] at h
                  by_cases hr : 0x10000 ≤ (b - 0xF0) * 0x40000 + (b2 - 0x80) * 0x1000 +
                        (b3 - 0x80) * 0x40 + (b4 - 0x80) ∧
                      (b - 0xF0) * 0x40000 + (b2 - 0x80) * 0x1000 +
                        (b3 - 0x80) * 0x40 + (b4 - 0x80) ≤ 0x10FFFF
                  · rw [if_pos hr] at h
                    obtain ⟨rfl, rfl⟩ :
                        (b - 0xF0) * 0x40000 + (b2 - 0x80) * 0x1000 +
                          (b3 - 0x80) * 0x40 + (b4 - 0x80) = cp ∧ 4 = n := by
                      simpa using h
                    obtain ⟨hb23, hb4⟩ := Bool.and_eq_true .. |>.mp hc234
                    obtain ⟨hb2, hb3⟩ := Bool.and_eq_true .. |>.mp hb23
                    obtain ⟨hb2a, hb2b⟩ := isCont_spec hb2
                    obtain ⟨hb3a, hb3b⟩ := isCont_spec hb3
                    obtain ⟨hb4a, hb4b⟩ := isCont_spec hb4
                    refine ⟨by omega, by simp, ?_, fun t => ?_⟩
                    · unfold utf8Len
                      have hx : ¬ (b - 0xF0) * 0x40000 + (b2 - 0x80) * 0x1000 +
                          (b3 - 0x80) * 0x40 + (b4 - 0x80) < 0x80 := by omega
                      have hy : ¬ (b - 0xF0) * 0x40000 + (b2 - 0x80) * 0x1000 +
                          (b3 - 0x80) * 0x40 + (b4 - 0x80) < 0x800 := by omega
                      have hz : ¬ (b - 0xF0) * 0x40000 + (b2 - 0x80) * 0x1000 +
                          (b3 - 0x80) * 0x40 + (b4 - 0x80) < 0x10000 := by omega
                      simp [hx, hy, hz]
                    · show utf8DecodeOne (b :: b2 :: b3 :: b4 :: t) =
                          some ((b - 0xF0) * 0x40000 + (b2 - 0x80) * 0x1000 +
                            (b3 - 0x80) * 0x40 + (b4 - 0x80), 4)
                      simp only [utf8DecodeOne, decodeTail4]
                      rw [if_neg h1, if_neg h2, if_neg h3, if_neg h4, if_pos h5, if_pos hc234,
                        if_pos hr]
                  · rw [if_neg hr] at h
                    exact absurd h (by simp)
                · rw [if_neg hc234] at h
                  exact absurd h (by simp)
            · rw [if_neg h5] at h
              exact absurd h (by simp)

/-- The fuel of `utf8DecodeAllF` is irrelevant once it covers the list
length. -/
theorem utf8DecodeAllF_fuel : ∀ (f1 f2 : Nat) (bs : List Nat),
    bs.length ≤ f1 → bs.length ≤ f2 →
    utf8DecodeAllF f1 bs = utf8DecodeAllF f2 bs := by
  intro f1
  induction f1 with
  | zero =>
    intro f2 bs h1 h2
    have hnil : bs = [] := List.length_eq_zero.mp (Nat.le_zero.mp h1)
    subst hnil
    simp [utf8DecodeAllF]
  | succ f ih =>
    intro f2 bs h1 h2
    cases bs with
    | nil => simp [utf8DecodeAllF]
    | cons b rest =>
      cases f2 with
      | zero => simp at h2
      | succ f2 =>
        simp only [utf8DecodeAllF]
        cases hdec : utf8DecodeOne (b :: rest) with
        | none => rfl
        | some v =>
          obtain ⟨cp, n⟩ := v
          obtain ⟨hn1, hn2, -, -⟩ := utf8DecodeOne_spec hdec
          dsimp only
          rw [ih f2 ((b :: rest).drop n)
            (by simp only [List.length_drop]; simp at h1 hn2 ⊢; omega)
            (by simp only [List.length_drop]; simp at h2 hn2 ⊢; omega)]

/-- `utf8Decode` agrees with any sufficiently fuelled run. -/
theorem utf8Decode_eq_allF (f : Nat) (bs : List Nat) (h : bs.length ≤ f) :
    utf8DecodeAllF f bs = utf8Decode bs :=
  utf8DecodeAllF_fuel f bs.length bs h (Nat.le_refl _)

/-- Specification of `takeRun`: it removes a prefix of the byte list that
decodes to codepoints of the token class, whose UTF-8 sizes sum to the
consumed byte count. -/
theorem takeRun_spec : ∀ (fuel : Nat) (bs : List Nat), bs.length ≤ fuel →
    (takeRun fuel bs).1 = bs.take (takeRun fuel bs).2 ∧
    (takeRun fuel bs).2 ≤ bs.length ∧
    ∃ cps, utf8Decode (takeRun fuel bs).1 = some cps ∧
      (∀ c ∈ cps, inClass c = true) ∧
      (cps.map utf8Len).sum = (takeRun fuel bs).2 := by
  intro fuel
  induction fuel with
  | zero =>
    intro bs h
    have hnil : bs = [] := List.length_eq_zero.mp (Nat.le_zero.mp h)
    subst hnil
    exact ⟨rfl, by simp [takeRun], [], by simp [takeRun, utf8Decode, utf8DecodeAllF],
      by simp, by simp [takeRun]⟩
  | succ f ih =>
    intro bs h
    cases hdec : utf8DecodeOne bs with
    | none =>
      have heq : takeRun (f + 1) bs = ([], 0) := by simp [takeRun, hdec]
      rw [heq]
      exact ⟨by simp, by simp, [], by simp [utf8Decode, utf8DecodeAllF], by simp, by simp⟩
    | some v =>
      obtain ⟨cp, n⟩ := v
      by_cases hc : inClass cp = true
      · have heq : takeRun (f + 1) bs =
            (bs.take n ++ (takeRun f (bs.drop n)).1, n + (takeRun f (bs.drop n)).2) := by
          simp [takeRun, hdec, hc]
        obtain ⟨hn1, hn2, hulen, hstable⟩ := utf8DecodeOne_spec hdec
        have hdroplen : (bs.drop n).length ≤ f := by
          simp only [List.length_drop]; omega
        obtain ⟨ih1, ih2, cps, ihdec, ihclass, ihsum⟩ := ih (bs.drop n) hdroplen
        rw [List.length_drop] at ih2
        have htaken : (bs.take n).length = n := by
          rw [List.length_take]; omega
        have hq1len : (takeRun f (bs.drop n)).1.length = (takeRun f (bs.drop n)).2 := by
          rw [ih1, List.length_take, List.length_drop]
          omega
        rw [heq]
        refine ⟨?_, by omega, cp :: cps, ?_, ?_, ?_⟩
        · rw [ih1, List.take_add]
        · have hlen2 : (bs.take n ++ (takeRun f (bs.drop n)).1).length =
              n + (takeRun f (bs.drop n)).2 := by
            simp [htaken, hq1len]
          rw [utf8Decode, hlen2]
          obtain ⟨m, hm⟩ : ∃ m, n + (takeRun f (bs.drop n)).2 = m + 1 :=
            ⟨n + (takeRun f (bs.drop n)).2 - 1, by omega⟩
          cases hbs1 : bs.take n with
          | nil => rw [hbs1] at htaken; simp at htaken; omega
          | cons x xs =>
            rw [hm]
            have hstable2 : utf8DecodeOne (x :: (xs ++ (takeRun f (bs.drop n)).1)) =
                some (cp, n) := by
              have := hstable (takeRun f (bs.drop n)).1
              rw [hbs1] at this
              simpa using this
            simp only [utf8DecodeAllF, List.cons_append, List.append_eq]
            rw [hstable2]
            dsimp only
            have hdropeq : ((x :: xs) ++ (takeRun f (bs.drop n)).1).drop n =
                (takeRun f (bs.drop n)).1 := by
              have hdl := List.drop_left (x :: xs) (takeRun f (bs.drop n)).1
              rw [hbs1] at htaken
              rw [htaken] at hdl
              exact hdl
            simp only [List.cons_append] at hdropeq
            rw [hdropeq]
            rw [utf8DecodeAllF_fuel m (takeRun f (bs.drop n)).1.length _
              (by omega) (Nat.le_refl _)]
            rw [show utf8DecodeAllF (takeRun f (bs.drop n)).1.length
                (takeRun f (bs.drop n)).1 = utf8Decode (takeRun f (bs.drop n)).1 from rfl]
            rw [ihdec]
            rfl
        · intro c hcmem
          rcases List.mem_cons.mp hcmem with rfl | hcmem2
          · exact hc
          · exact ihclass c hcmem2
        · simp only [List.map_cons, List.sum_cons, hulen, ihsum]
      · have heq : takeRun (f + 1) bs = ([], 0) := by simp [takeRun, hdec, hc]
        rw [heq]
        exact ⟨by simp, by simp, [], by simp [utf8Decode, utf8DecodeAllF], by simp, by simp⟩

/-- Specification of the regex scan: every reported match lies at or after
the scan origin, is a non-empty byte run decoding to class codepoints whose
UTF-8 sizes sum to the run's byte length, and consecutive matches do not
overlap. -/
theorem scanRuns_spec : ∀ (fuel : Nat) (bs : List Nat) (pos : Nat), bs.length ≤ fuel →
    (∀ r ∈ scanRuns fuel bs pos, pos ≤ r.1 ∧ r.2 ≠ [] ∧
      ∃ cps, utf8Decode r.2 = some cps ∧ (∀ c ∈ cps, inClass c = true) ∧
        (cps.map utf8Len).sum = r.2.length) ∧
    (scanRuns fuel bs pos).Chain' (fun a b => a.1 + a.2.length ≤ b.1) := by
  intro fuel
  induction fuel with
  | zero =>
    intro bs pos h
    simp [scanRuns]
  | succ f ih =>
    intro bs pos h
    cases hdec : utf8DecodeOne bs with
    | none =>
      cases bs with
      | nil => simp [scanRuns, hdec]
      | cons b rest =>
        have heq : scanRuns (f + 1) (b :: rest) pos = scanRuns f rest (pos + 1) := by
          simp [scanRuns, hdec]
        have hlen : rest.length ≤ f := by simp at h; omega
        obtain ⟨ihm, ihc⟩ := ih rest (pos + 1) hlen
        rw [heq]
        refine ⟨fun r hr => ?_, ihc⟩
        obtain ⟨hp, hrest⟩ := ihm r hr
        exact ⟨by omega, hrest⟩
    | some v =>
      obtain ⟨cp, n⟩ := v
      obtain ⟨hn1, hn2, -, -⟩ := utf8DecodeOne_spec hdec
      by_cases hc : inClass cp = true
      · have hr2 : (takeRun (f + 1) bs).2 = n + (takeRun f (bs.drop n)).2 := by
          simp [takeRun, hdec, hc]
        have heq : scanRuns (f + 1) bs pos =
            (pos, (takeRun (f + 1) bs).1) ::
              scanRuns f (bs.drop (takeRun (f + 1) bs).2)
                (pos + (takeRun (f + 1) bs).2) := by
          simp [scanRuns, hdec, hc]
        obtain ⟨ht1, ht2, cps, htdec, htclass, htsum⟩ := takeRun_spec (f + 1) bs h
        have hpos2 : 1 ≤ (takeRun (f + 1) bs).2 := by omega
        have hlen1 : (takeRun (f + 1) bs).1.length = (takeRun (f + 1) bs).2 := by
          rw [ht1, List.length_take]; omega
        have hne : (takeRun (f + 1) bs).1 ≠ [] := by
          intro hnil
          rw [hnil] at hlen1
          simp at hlen1
          omega
        have hdroplen : (bs.drop (takeRun (f + 1) bs).2).length ≤ f := by
          simp only [List.length_drop]; omega
        obtain ⟨ihm, ihc⟩ := ih (bs.drop (takeRun (f + 1) bs).2)
          (pos + (takeRun (f + 1) bs).2) hdroplen
        rw [heq]
        constructor
        · intro r hr
          rcases List.mem_cons.mp hr with rfl | hr2
          · exact ⟨Nat.le_refl _, hne, cps, htdec, htclass, by rw [htsum, hlen1]⟩
          · obtain ⟨hp, hrest⟩ := ihm r hr2
            exact ⟨by omega, hrest⟩
        · rw [List.chain'_cons']
          refine ⟨fun y hy => ?_, ihc⟩
          have hymem := List.mem_of_mem_head? hy
          obtain ⟨hp, -⟩ := ihm y hymem
          simp only [hlen1]
          omega
      · have heq : scanRuns (f + 1) bs pos = scanRuns f (bs.drop n) (pos + n) := by
          simp [scanRuns, hdec, hc]
        have hdroplen : (bs.drop n).length ≤ f := by
          simp only [List.length_drop]; omega
        obtain ⟨ihm, ihc⟩ := ih (bs.drop n) (pos + n) hdroplen
        rw [heq]
        refine ⟨fun r hr => ?_, ihc⟩
        obtain ⟨hp, hrest⟩ := ihm r hr
        exact ⟨by omega, hrest⟩

/-! ## Claim theorems -/

/-- C2: for every input byte buffer, the Symbols produced by
`Symbol::parse` have strictly increasing, non-overlapping offsets (each
Symbol's offset plus its text's byte length is at most the next Symbol's
offset — stated for every ordered pair), and every character of every
Symbol's text is alphabetic, a decimal digit, or an underscore. -/
theorem C2_parse_invariants (content : List Nat) :
    (Symbol.parse content).Pairwise
      (fun s t => s.offset + strBytes s.token ≤ t.offset ∧ s.offset < t.offset) ∧
    ∀ s ∈ Symbol.parse content, ∀ c ∈ s.token, inClass c = true := by
  obtain ⟨hm, hch⟩ := scanRuns_spec content.length content 0 (Nat.le_refl _)
  haveI : IsTrans (Nat × List Nat) (fun a b => a.1 + a.2.length ≤ b.1) :=
    ⟨fun a b c hab hbc => by omega⟩
  have hpw : (findRuns content).Pairwise (fun a b => a.1 + a.2.length ≤ b.1) :=
    List.chain'_iff_pairwise.mp hch
  constructor
  · simp only [Symbol.parse]
    rw [List.pairwise_filterMap]
    refine hpw.imp_of_mem ?_
    intro a b ha hb hab x hx y hy
    rw [Option.mem_def, Option.map_eq_some'] at hx hy
    obtain ⟨cpsa, hdeca, rfl⟩ := hx
    obtain ⟨cpsb, hdecb, rfl⟩ := hy
    obtain ⟨-, hnea, cps, hdec, -, hsum⟩ := hm a ha
    rw [hdeca] at hdec
    obtain rfl : cpsa = cps := by injection hdec
    have hlena : 1 ≤ a.2.length := List.length_pos.mpr hnea
    refine ⟨?_, ?_⟩ <;> simp only [strBytes] <;> omega
  · intro s hs c hcs
    simp only [Symbol.parse] at hs
    obtain ⟨r, hr, hsr⟩ := List.mem_filterMap.mp hs
    rw [Option.map_eq_some'] at hsr
    obtain ⟨cpsr, hdecr, rfl⟩ := hsr
    obtain ⟨-, -, cps, hdec, hclass, -⟩ := hm r hr
    rw [hdecr] at hdec
    obtain rfl : cpsr = cps := by injection hdec
    exact hclass c hcs

/-- C9: candidate token runs whose bytes fail to decode as UTF-8 are
silently omitted from `Symbol::parse`'s output — the parse is exactly the
decodable matches, in order, with no error and no abort — and in fact every
match of the token regex does decode. -/
theorem C9_invalid_runs_skipped (content : List Nat) :
    Symbol.parse content =
      ((findRuns content).filter fun r => (utf8Decode r.2).isSome).map
        (fun r => { token := (utf8Decode r.2).getD [], offset := r.1 }) ∧
    ∀ r ∈ findRuns content, (utf8Decode r.2).isSome = true := by
  constructor
  · simp only [Symbol.parse]
    generalize findRuns content = runs
    induction runs with
    | nil => rfl
    | cons r rest ih =>
      cases hdec : utf8Decode r.2 with
      | none => simpa [List.filterMap_cons, List.filter_cons, hdec] using ih
      | some cps => simpa [List.filterMap_cons, List.filter_cons, hdec] using ih
  · intro r hr
    obtain ⟨hmem, -⟩ := scanRuns_spec content.length content 0 (Nat.le_refl _)
    obtain ⟨-, -, cps, hdec, -, -⟩ := hmem r hr
    simp [hdec]

theorem sliceFrom_zero (s : Str) : sliceFrom s 0 = some s := by
  cases s <;> rfl

theorem sliceLen_zero (s : Str) : sliceLen s 0 = some [] := by
  cases s <;> rfl

/-- Advancing a valid byte position by the head character's size stays
valid and drops that character. -/
theorem sliceFrom_advance : ∀ {s : Str} {i c : Nat} {rest : Str},
    sliceFrom s i = some (c :: rest) → sliceFrom s (i + utf8Len c) = some rest := by
  intro s
  induction s with
  | nil =>
    intro i c rest h
    cases i with
    | zero => simp [sliceFrom] at h
    | succ j => simp [sliceFrom] at h
  | cons d s2 ih =>
    intro i c rest h
    cases i with
    | zero =>
      rw [sliceFrom_zero] at h
      obtain ⟨rfl, rfl⟩ : d = c ∧ s2 = rest := by simpa using h
      obtain ⟨m, hm⟩ : ∃ m, utf8Len d = m + 1 := ⟨utf8Len d - 1, by have := utf8Len_pos d; omega⟩
      rw [Nat.zero_add, hm]
      simp only [sliceFrom]
      rw [if_pos (by omega), show m + 1 - utf8Len d = 0 from by omega, sliceFrom_zero]
    | succ j =>
      simp only [sliceFrom] at h
      by_cases hd : utf8Len d ≤ j + 1
      · rw [if_pos hd] at h
        rw [show j + 1 + utf8Len c = (j + utf8Len c) + 1 from by omega]
        simp only [sliceFrom]
        rw [if_pos (by omega),
          show j + utf8Len c + 1 - utf8Len d = (j + 1 - utf8Len d) + utf8Len c from by omega]
        exact ih h
      · rw [if_neg hd] at h
        exact absurd h (by simp)

/-- A position strictly inside a character's bytes is not a character
boundary. -/
theorem sliceFrom_midchar : ∀ {s : Str} {i c : Nat} {rest : Str} {k : Nat},
    sliceFrom s i = some (c :: rest) → 0 < k → k < utf8Len c →
    sliceFrom s (i + k) = none := by
  intro s
  induction s with
  | nil =>
    intro i c rest k h
    cases i with
    | zero => simp [sliceFrom] at h
    | succ j => simp [sliceFrom] at h
  | cons d s2 ih =>
    intro i c rest k h hk1 hk2
    cases i with
    | zero =>
      rw [sliceFrom_zero] at h
      obtain ⟨rfl, rfl⟩ : d = c ∧ s2 = rest := by simpa using h
      obtain ⟨m, hm⟩ : ∃ m, k = m + 1 := ⟨k - 1, by omega⟩
      rw [Nat.zero_add, hm]
      simp only [sliceFrom]
      rw [if_neg (by omega)]
    | succ j =>
      simp only [sliceFrom] at h
      by_cases hd : utf8Len d ≤ j + 1
      · rw [if_pos hd] at h
        rw [show j + 1 + k = (j + k) + 1 from by omega]
        simp only [sliceFrom]
        rw [if_pos (by omega),
          show j + k + 1 - utf8Len d = (j + 1 - utf8Len d) + k from by omega]
        exact ih h hk1 hk2
      · rw [if_neg hd] at h
        exact absurd h (by simp)

/-- Dropping `a` bytes and then `k` more drops `a + k` bytes. -/
theorem sliceFrom_compose : ∀ {s : Str} {a : Nat} {t : Str} {k : Nat},
    sliceFrom s a = some t → sliceFrom s (a + k) = sliceFrom t k := by
  intro s
  induction s with
  | nil =>
    intro a t k h
    cases a with
    | zero =>
      obtain rfl : t = [] := by simpa [sliceFrom_zero] using h
      rw [Nat.zero_add]
    | succ j => simp [sliceFrom] at h
  | cons d s2 ih =>
    intro a t k h
    cases a with
    | zero =>
      obtain rfl : d :: s2 = t := by simpa [sliceFrom_zero] using h
      rw [Nat.zero_add]
    | succ j =>
      simp only [sliceFrom] at h
      by_cases hd : utf8Len d ≤ j + 1
      · rw [if_pos hd] at h
        rw [show j + 1 + k = (j + k) + 1 from by omega]
        simp only [sliceFrom]
        rw [if_pos (by omega),
          show j + k + 1 - utf8Len d = (j + 1 - utf8Len d) + k from by omega]
        exact ih h
      · rw [if_neg hd] at h
        exact absurd h (by simp)

/-- The empty slice at any valid position. -/
theorem slice_refl {s : Str} {i : Nat} {rem : Str} (h : sliceFrom s i = some rem) :
    slice s i i = some [] := by
  unfold slice
  rw [if_pos (Nat.le_refl i), h]
  simp [sliceLen_zero]

/-- Taking one more character extends a prefix slice. -/
theorem sliceLen_extend : ∀ {t : Str} {m : Nat} {ow : Str} {c : Nat} {rest : Str},
    sliceLen t m = some ow → sliceFrom t m = some (c :: rest) →
    sliceLen t (m + utf8Len c) = some (ow ++ [c]) := by
  intro t
  induction t with
  | nil =>
    intro m ow c rest h1 h2
    cases m with
    | zero => simp [sliceFrom_zero] at h2
    | succ j => simp [sliceLen] at h1
  | cons d t2 ih =>
    intro m ow c rest h1 h2
    cases m with
    | zero =>
      obtain rfl : ow = [] := by simpa [sliceLen_zero] using h1
      rw [sliceFrom_zero] at h2
      obtain ⟨rfl, rfl⟩ : d = c ∧ t2 = rest := by simpa using h2
      obtain ⟨m, hm⟩ : ∃ m, utf8Len d = m + 1 := ⟨utf8Len d - 1, by have := utf8Len_pos d; omega⟩
      rw [Nat.zero_add, hm]
      simp only [sliceLen]
      rw [if_pos (by omega), show m + 1 - utf8Len d = 0 from by omega, sliceLen_zero]
      rfl
    | succ j =>
      simp only [sliceLen] at h1
      simp only [sliceFrom] at h2
      by_cases hd : utf8Len d ≤ j + 1
      · rw [if_pos hd] at h1 h2
        obtain ⟨ow2, how2, rfl⟩ := Option.map_eq_some'.mp h1
        rw [show j + 1 + utf8Len c = (j + utf8Len c) + 1 from by omega]
        simp only [sliceLen]
        rw [if_pos (by omega),
          show j + utf8Len c + 1 - utf8Len d = (j + 1 - utf8Len d) + utf8Len c from by omega,
          ih how2 h2]
        rfl
      · rw [if_neg hd] at h1
        exact absurd h1 (by simp)

/-- Extend a byte-range slice by the character at its right end. -/
theorem slice_extend {s : Str} {a i : Nat} {ow : Str} {c : Nat} {rest : Str}
    (hsl : slice s a i = some ow) (hsf : sliceFrom s i = some (c :: rest)) :
    slice s a (i + utf8Len c) = some (ow ++ [c]) := by
  unfold slice at hsl ⊢
  by_cases hai : a ≤ i
  · rw [if_pos hai] at hsl
    rw [if_pos (by omega)]
    cases hfa : sliceFrom s a with
    | none => rw [hfa] at hsl; exact absurd hsl (by simp)
    | some t =>
      rw [hfa] at hsl
      have hsl2 : sliceLen t (i - a) = some ow := hsl
      have hcomp : sliceFrom t (i - a) = some (c :: rest) := by
        have hck := sliceFrom_compose hfa (k := i - a)
        rw [show a + (i - a) = i from by omega] at hck
        rw [← hck, hsf]
      show sliceLen t (i + utf8Len c - a) = some (ow ++ [c])
      rw [show i + utf8Len c - a = (i - a) + utf8Len c from by omega]
      exact sliceLen_extend hsl2 hcomp
  · rw [if_neg hai] at hsl
    exact absurd hsl (by simp)

/-- A prefix slice and the complementary suffix reassemble the string. -/
theorem sliceLen_sliceFrom_append : ∀ {t : Str} {m : Nat} {ow rem : Str},
    sliceLen t m = some ow → sliceFrom t m = some rem → t = ow ++ rem := by
  intro t
  induction t with
  | nil =>
    intro m ow rem h1 h2
    cases m with
    | zero =>
      obtain rfl : ow = [] := by simpa [sliceLen_zero] using h1
      obtain rfl : rem = [] := by simpa [sliceFrom_zero] using h2
      rfl
    | succ j => simp [sliceLen] at h1
  | cons d t2 ih =>
    intro m ow rem h1 h2
    cases m with
    | zero =>
      obtain rfl : ow = [] := by simpa [sliceLen_zero] using h1
      obtain rfl : d :: t2 = rem := by simpa [sliceFrom_zero] using h2
      rfl
    | succ j =>
      simp only [sliceLen] at h1
      simp only [sliceFrom] at h2
      by_cases hd : utf8Len d ≤ j + 1
      · rw [if_pos hd] at h1 h2
        obtain ⟨ow2, how2, rfl⟩ := Option.map_eq_some'.mp h1
        rw [ih how2 h2]
        rfl
      · rw [if_neg hd] at h1
        exact absurd h1 (by simp)

/-- A byte-range slice followed by the suffix at its right end gives the
suffix at its left end. -/
theorem sliceFrom_append {s : Str} {a i : Nat} {ow rem : Str}
    (hsl : slice s a i = some ow) (hsf : sliceFrom s i = some rem) :
    sliceFrom s a = some (ow ++ rem) := by
  unfold slice at hsl
  by_cases hai : a ≤ i
  · rw [if_pos hai] at hsl
    cases hfa : sliceFrom s a with
    | none => rw [hfa] at hsl; exact absurd hsl (by simp)
    | some t =>
      rw [hfa] at hsl
      have hsl2 : sliceLen t (i - a) = some ow := hsl
      have hcomp : sliceFrom t (i - a) = some rem := by
        have hck := sliceFrom_compose hfa (k := i - a)
        rw [show a + (i - a) = i from by omega] at hck
        rw [← hck, hsf]
      rw [sliceLen_sliceFrom_append hsl2 hcomp]
  · rw [if_neg hai] at hsl
    exact absurd hsl (by simp)

theorem boundaryAfterCur_ne_true {cur nm : WordMode}
    (h : ¬ boundaryAfterCur cur nm = true) : nm ≠ WordMode.Boundary := by
  intro hn
  subst hn
  cases cur <;> simp [boundaryAfterCur] at h

theorem boundaryBeforeCur_next_low {sm cur nm : WordMode}
    (h : boundaryBeforeCur sm cur nm = true) : nm = WordMode.Lowercase := by
  cases sm <;> cases cur <;> cases nm <;> simp_all [boundaryBeforeCur]

/-- Loop invariant of `split_symbol`: as long as the scan position is a
character boundary and the open span `[start, i)` is a valid slice of
non-Boundary characters (or `start` is stuck inside a character, in which
case every later push panics), all emitted words consist of non-Boundary
characters. -/
theorem splitLoop_nonboundary :
    ∀ (rem symbol : Str) (offset i start : Nat) (sm : WordMode) (ws : List Word),
      sliceFrom symbol i = some rem →
      (sliceFrom symbol start = none ∨
        (∃ ow, slice symbol start i = some ow ∧
          (∀ c ∈ ow, WordMode.classify c ≠ .Boundary) ∧
          (start = i ∨ ∃ c2, rem.head? = some c2 ∧ WordMode.classify c2 ≠ .Boundary))) →
      splitLoop symbol offset rem i start sm = some ws →
      ∀ w ∈ ws, ∀ c ∈ w.token, WordMode.classify c ≠ .Boundary := by
  intro rem
  induction rem with
  | nil =>
    intro symbol offset i start sm ws hsf hinv hrun
    obtain rfl : ws = [] := by simpa [splitLoop] using hrun.symm
    simp
  | cons c rest ih =>
    intro symbol offset i start sm ws hsf hinv hrun
    by_cases hcb : WordMode.classify c = .Boundary
    · simp only [splitLoop] at hrun
      rw [if_pos hcb] at hrun
      rcases hinv with hB | ⟨ow, hsl, how, hdisj⟩
      · have hne : ¬ (start = i) := by
          intro he
          rw [he, hsf] at hB
          exact Option.noConfusion hB
        rw [if_neg hne] at hrun
        exact ih symbol offset (i + utf8Len c) start sm ws (sliceFrom_advance hsf)
          (Or.inl hB) hrun
      · have hstart : start = i := by
          rcases hdisj with h | ⟨c2, hc2, hnb⟩
          · exact h
          · simp only [List.head?_cons, Option.some.injEq] at hc2
            subst hc2
            exact absurd hcb hnb
        subst hstart
        rw [if_pos rfl] at hrun
        by_cases hone : utf8Len c = 1
        · have hadv := sliceFrom_advance hsf
          refine ih symbol offset (start + utf8Len c) (start + 1) sm ws hadv
            (Or.inr ⟨[], ?_, by simp, Or.inl (by omega)⟩) hrun
          rw [hone]
          rw [hone] at hadv
          exact slice_refl hadv
        · refine ih symbol offset (start + utf8Len c) (start + 1) sm ws
            (sliceFrom_advance hsf) (Or.inl ?_) hrun
          exact sliceFrom_midchar hsf (by omega) (by have := utf8Len_pos c; omega)
    · cases rest with
      | nil =>
        rw [splitLoop] at hrun
        dsimp only at hrun
        rw [if_neg hcb] at hrun
        rcases hinv with hB | ⟨ow, hsl, how, -⟩
        · rw [hB] at hrun
          simp at hrun
        · have happ := sliceFrom_append hsl hsf
          rw [happ] at hrun
          obtain rfl : ws = [⟨ow ++ [c], start + offset⟩] := by simpa using hrun.symm
          intro w hw c3 hc3
          simp only [List.mem_singleton] at hw
          subst hw
          rcases List.mem_append.mp hc3 with hmem | hmem
          · exact how c3 hmem
          · simp only [List.mem_singleton] at hmem
            subst hmem
            exact hcb
      | cons next rest2 =>
        rw [splitLoop] at hrun
        dsimp only at hrun
        rw [if_neg hcb] at hrun
        by_cases h1 : boundaryAfterCur (WordMode.classify c) (WordMode.classify next) = true
        · rw [if_pos h1] at hrun
          rcases hinv with hB | ⟨ow, hsl, how, -⟩
          · have hnone : slice symbol start (i + utf8Len c) = none := by
              unfold slice
              split
              · rw [hB]
                rfl
              · rfl
            rw [hnone] at hrun
            simp at hrun
          · have hext := slice_extend hsl hsf
            rw [hext] at hrun
            obtain ⟨ws2, hws2, rfl⟩ := Option.map_eq_some'.mp hrun
            intro w hw
            rcases List.mem_cons.mp hw with rfl | hw2
            · intro c3 hc3
              rcases List.mem_append.mp hc3 with hmem | hmem
              · exact how c3 hmem
              · simp only [List.mem_singleton] at hmem
                subst hmem
                exact hcb
            · exact ih symbol offset (i + utf8Len c) (i + utf8Len c) .Boundary ws2
                (sliceFrom_advance hsf)
                (Or.inr ⟨[], slice_refl (sliceFrom_advance hsf), by simp, Or.inl rfl⟩)
                hws2 w hw2
        · rw [if_neg h1] at hrun
          by_cases h2 : boundaryBeforeCur sm (WordMode.classify c)
              (WordMode.classify next) = true
          · rw [if_pos h2] at hrun
            rcases hinv with hB | ⟨ow, hsl, how, -⟩
            · have hnone : slice symbol start i = none := by
                unfold slice
                split
                · rw [hB]
                  rfl
                · rfl
              rw [hnone] at hrun
              simp at hrun
            · rw [hsl] at hrun
              obtain ⟨ws2, hws2, rfl⟩ := Option.map_eq_some'.mp hrun
              have hnlow := boundaryBeforeCur_next_low h2
              have hci : slice symbol i (i + utf8Len c) = some [c] := by
                have h0 := slice_extend (slice_refl hsf) hsf
                simpa using h0
              intro w hw
              rcases List.mem_cons.mp hw with rfl | hw2
              · intro c3 hc3
                exact how c3 hc3
              · refine ih symbol offset (i + utf8Len c) i .Boundary ws2
                  (sliceFrom_advance hsf)
                  (Or.inr ⟨[c], hci, ?_, Or.inr ⟨next, rfl, ?_⟩⟩) hws2 w hw2
                · intro c3 hc3
                  simp only [List.mem_singleton] at hc3
                  subst hc3
                  exact hcb
                · rw [hnlow]
                  simp
          · rw [if_neg h2] at hrun
            have hnb : WordMode.classify next ≠ .Boundary := boundaryAfterCur_ne_true h1
            rcases hinv with hB | ⟨ow, hsl, how, -⟩
            · exact ih symbol offset (i + utf8Len c) start (WordMode.classify c) ws
                (sliceFrom_advance hsf) (Or.inl hB) hrun
            · refine ih symbol offset (i + utf8Len c) start (WordMode.classify c) ws
                (sliceFrom_advance hsf)
                (Or.inr ⟨ow ++ [c], slice_extend hsl hsf, ?_, Or.inr ⟨next, rfl, hnb⟩⟩) hrun
              intro c3 hc3
              rcases List.mem_append.mp hc3 with hmem | hmem
              · exact how c3 hmem
              · simp only [List.mem_singleton] at hmem
                subst hmem
                exact hcb

/-- Words of a successful `split_symbol` never contain Boundary-classified
characters. -/
theorem split_symbol_nonboundary {symbol : Str} {offset : Nat} {ws : List Word}
    (h : split_symbol symbol offset = some ws) :
    ∀ w ∈ ws, ∀ c ∈ w.token, WordMode.classify c ≠ .Boundary :=
  splitLoop_nonboundary symbol symbol offset 0 0 .Boundary ws (sliceFrom_zero symbol)
    (Or.inr ⟨[], slice_refl (sliceFrom_zero symbol), by simp, Or.inl rfl⟩) h

/-- C1 (counterexample): on the single-line file `"HTML is rendred here"`
with the correction capability mapping only `"rendred"` to `"rendered"`,
the emitted message does not have `col_num = 9` as the claim states: the
byte offset of `"rendred"` in the line is 8 and the code emits the offset
unchanged. -/
theorem C1_counterexample :
    ¬ ((process_file dictC1 bufC1).map
        (fun m => (m.word, m.correction, m.line_num, m.col_num)) =
      [(misspelledWord, correctedWord, 1, 9)]) := by decide

/-- C1 (amended): scanning the single-line file `"HTML is rendred here"`
with a correction capability mapping `"rendred"` to `"rendered"` and
nothing else emits exactly one Message, with `word = "rendred"`,
`correction = "rendered"`, `line_num = 1` and `col_num = 8`, the 0-based
byte offset of `"rendred"`. -/
theorem C1_amended :
    process_file dictC1 bufC1 =
      [{ line := bufC1, line_num := 1, col_num := 8, word := misspelledWord,
         correction := correctedWord }] := by decide

/-- C3 (code-bug exhibit): the Symbol `"٠a"` (ARABIC-INDIC DIGIT ZERO,
codepoint 1632, then `"a"`) is produced by the Symbol Extractor, but
splitting it panics in the source — after skipping the two-byte Boundary
character the loop advances `start` by a single byte, and the trailing
`&symbol[1..]` slice is not on a character boundary.  The panic is
modelled by `none`: no Word sequence is produced, so the Words do not
cover the Symbol's non-boundary characters as the claim requires. -/
theorem C3_split_panics_on_multibyte_boundary :
    Symbol.parse (utf8Encode [1632, 97]) = [⟨[1632, 97], 0⟩] ∧
    split_symbol [1632, 97] 0 = none := by decide

/-- C4: the five documented splitting examples — `"PDFLoader"` into
`["PDF", "Loader"]`, `"GL11Version"` into `["GL", "11", "Version"]`,
`"99Bottles"` into `["99", "Bottles"]`, `"BFG9000"` into
`["BFG", "9000"]`, and `"vimRPCPlugin"` into `["vim", "RPC", "Plugin"]`
(all strings given by their ASCII codepoints). -/
theorem C4_split_examples :
    (split_symbol [80, 68, 70, 76, 111, 97, 100, 101, 114] 0).map
        (List.map Word.token) =
      some [[80, 68, 70], [76, 111, 97, 100, 101, 114]] ∧
    (split_symbol [71, 76, 49, 49, 86, 101, 114, 115, 105, 111, 110] 0).map
        (List.map Word.token) =
      some [[71, 76], [49, 49], [86, 101, 114, 115, 105, 111, 110]] ∧
    (split_symbol [57, 57, 66, 111, 116, 116, 108, 101, 115] 0).map
        (List.map Word.token) =
      some [[57, 57], [66, 111, 116, 116, 108, 101, 115]] ∧
    (split_symbol [66, 70, 71, 57, 48, 48, 48] 0).map (List.map Word.token) =
      some [[66, 70, 71], [57, 48, 48, 48]] ∧
    (split_symbol [118, 105, 109, 82, 80, 67, 80, 108, 117, 103, 105, 110] 0).map
        (List.map Word.token) =
      some [[118, 105, 109], [82, 80, 67], [80, 108, 117, 103, 105, 110]] := by
  decide

/-- C5: each effective-value accessor of `Walk` resolves by its stated
precedence chain bottoming out at `true`, and for the Walk whose only set
field is `ignore_files = false` the four dependent accessors all return
`false`. -/
theorem C5_walk_accessors :
    (∀ w : Walk,
      w.ignore_hidden_eff = (match w.ignore_hidden with
        | some b => b
        | none => true) ∧
      w.ignore_dot_eff = (match w.ignore_dot with
        | some b => b
        | none => match w.ignore_files with
          | some b => b
          | none => true) ∧
      w.ignore_vcs_eff = (match w.ignore_vcs with
        | some b => b
        | none => match w.ignore_files with
          | some b => b
          | none => true) ∧
      w.ignore_global_eff = (match w.ignore_global with
        | some b => b
        | none => match w.ignore_vcs with
          | some b => b
          | none => match w.ignore_files with
            | some b => b
            | none => true) ∧
      w.ignore_parent_eff = (match w.ignore_parent with
        | some b => b
        | none => match w.ignore_files with
          | some b => b
          | none => true)) ∧
    ((Walk.mk none (some false) none none none none).ignore_dot_eff = false ∧
      (Walk.mk none (some false) none none none none).ignore_vcs_eff = false ∧
      (Walk.mk none (some false) none none none none).ignore_global_eff = false ∧
      (Walk.mk none (some false) none none none none).ignore_parent_eff = false) := by
  refine ⟨fun w => ⟨?_, ?_, ?_, ?_, ?_⟩, by decide⟩
  · cases hh : w.ignore_hidden <;>
      simp [Walk.ignore_hidden_eff, hh]
  · cases hd : w.ignore_dot <;> cases hf : w.ignore_files <;>
      simp [Walk.ignore_dot_eff, hd, hf, Option.or]
  · cases hv : w.ignore_vcs <;> cases hf : w.ignore_files <;>
      simp [Walk.ignore_vcs_eff, hv, hf, Option.or]
  · cases hg : w.ignore_global <;> cases hv : w.ignore_vcs <;>
      cases hf : w.ignore_files <;>
      simp [Walk.ignore_global_eff, hg, hv, hf, Option.or]
  · cases hp : w.ignore_parent <;> cases hf : w.ignore_files <;>
      simp [Walk.ignore_parent_eff, hp, hf, Option.or]

/-- C6: field-wise characterization of `Walk::update` on every base and
overlay: scalar fields are right-biased, an overlay setting
`ignore_files` resets `ignore_dot`/`ignore_vcs`/`ignore_global`/
`ignore_parent` to unset on that same merge (before the overlay's own
values for those fields, if any, are applied), and an overlay setting
`ignore_vcs` likewise resets `ignore_global`. -/
theorem C6_walk_update (base overlay : Walk) :
    (base.update overlay).ignore_hidden =
      overlay.ignore_hidden.or base.ignore_hidden ∧
    (base.update overlay).ignore_files =
      overlay.ignore_files.or base.ignore_files ∧
    (base.update overlay).ignore_dot = overlay.ignore_dot.or
      (if overlay.ignore_files.isSome then none else base.ignore_dot) ∧
    (base.update overlay).ignore_vcs = overlay.ignore_vcs.or
      (if overlay.ignore_files.isSome then none else base.ignore_vcs) ∧
    (base.update overlay).ignore_global = overlay.ignore_global.or
      (if overlay.ignore_vcs.isSome || overlay.ignore_files.isSome then none
        else base.ignore_global) ∧
    (base.update overlay).ignore_parent = overlay.ignore_parent.or
      (if overlay.ignore_files.isSome then none else base.ignore_parent) := by
  obtain ⟨oh, of, od, ov, og, op⟩ := overlay
  cases oh <;> cases of <;> cases od <;> cases ov <;> cases og <;> cases op <;>
    simp [Walk.update, Option.or]

/-- C10: the Word Splitter classifies exactly the ASCII digits as
`Number`; every other decimal digit (category `Nd`) is classified
`Boundary`; words of a successful split never contain a
Boundary-classified character; and concretely the Symbol `"a٠"`
(`"a"` then ARABIC-INDIC DIGIT ZERO, codepoints `[97, 1632]`) is produced
by the Symbol Extractor yet splits into the single Word `"a"` — the
decimal digit 1632 is dropped from every Word. -/
theorem C10_number_is_ascii_only :
    (∀ c : Nat, WordMode.classify c = .Number ↔ isAsciiDigit c = true) ∧
    (∀ c : Nat, isNd c = true → isAsciiDigit c = false →
      WordMode.classify c = .Boundary) ∧
    (∀ (symbol : Str) (offset : Nat) (ws : List Word),
      split_symbol symbol offset = some ws →
      ∀ w ∈ ws, ∀ c ∈ w.token, WordMode.classify c ≠ .Boundary) ∧
    (isNd 1632 = true ∧ inClass 1632 = true ∧
      Symbol.parse (utf8Encode [97, 1632]) = [⟨[97, 1632], 0⟩] ∧
      split_symbol [97, 1632] 0 = some [⟨[97], 0⟩]) := by
  refine ⟨?_, ?_, fun symbol offset ws h => split_symbol_nonboundary h, by decide⟩
  · intro c
    constructor
    · intro h
      unfold WordMode.classify at h
      by_cases hl : isLowercase c = true
      · rw [if_pos hl] at h
        simp at h
      · rw [if_neg hl] at h
        by_cases hu : isUppercase c = true
        · rw [if_pos hu] at h
          simp at h
        · rw [if_neg hu] at h
          by_cases ha : isAsciiDigit c = true
          · exact ha
          · rw [if_neg ha] at h
            simp at h
    · intro ha
      simp only [isAsciiDigit, Bool.and_eq_true, decide_eq_true_eq] at ha
      have hl : ¬ isLowercase c = true := by
        simp only [isLowercase, Bool.or_eq_true, Bool.and_eq_true, decide_eq_true_eq]
        omega
      have hu : ¬ isUppercase c = true := by
        simp only [isUppercase, Bool.or_eq_true, Bool.and_eq_true, decide_eq_true_eq]
        omega
      unfold WordMode.classify
      rw [if_neg hl, if_neg hu, if_pos (by simp [isAsciiDigit]; omega)]
  · intro c h1 h2
    simp only [isNd, Bool.or_eq_true, Bool.and_eq_true, decide_eq_true_eq] at h1
    have h2p : ¬ (0x30 ≤ c ∧ c ≤ 0x39) := by
      intro hc
      rw [show isAsciiDigit c = true from by simp [isAsciiDigit]; omega] at h2
      exact Bool.noConfusion h2
    have hl : ¬ isLowercase c = true := by
      simp only [isLowercase, Bool.or_eq_true, Bool.and_eq_true, decide_eq_true_eq]
      omega
    have hu : ¬ isUppercase c = true := by
      simp only [isUppercase, Bool.or_eq_true, Bool.and_eq_true, decide_eq_true_eq]
      omega
    have ha : ¬ isAsciiDigit c = true := by
      simp only [isAsciiDigit, Bool.and_eq_true, decide_eq_true_eq]
      omega
    unfold WordMode.classify
    rw [if_neg hl, if_neg hu, if_neg ha]

/-- Witness for C10: applying the theorem at concrete inputs — the
Arabic-Indic digit zero is Boundary for the splitter, and the character of
the one Word of the Symbol `"a٠"` is not Boundary. -/
theorem C10_number_is_ascii_only_witness :
    WordMode.classify 1632 = WordMode.Boundary ∧
    WordMode.classify 97 ≠ WordMode.Boundary :=
  ⟨C10_number_is_ascii_only.2.1 1632 (by decide) (by decide),
    C10_number_is_ascii_only.2.2.1 [97, 1632] 0 [⟨[97], 0⟩] (by decide)
      ⟨[97], 0⟩ (by decide) 97 (by decide)⟩

theorem walk_update_defaults (ov : Walk) :
    Walk.from_defaults.update ov = Walk.mergeReset ov := by
  obtain ⟨wh, wf, wd, wv, wg, wp⟩ := ov
  cases wh <;> cases wf <;> cases wd <;> cases wv <;> cases wg <;> cases wp <;>
    simp [Walk.update, Walk.mergeReset, Walk.from_defaults, Walk.defaultWalk,
      Walk.ignore_hidden_eff, Walk.ignore_dot_eff, Walk.ignore_vcs_eff,
      Walk.ignore_global_eff, Walk.ignore_parent_eff, Option.or]

theorem tokenizer_update_defaults (t : TokenizerConfig) :
    TokenizerConfig.from_defaults.update t = TokenizerConfig.mergeSpecC7 t := by
  simp [TokenizerConfig.update, TokenizerConfig.from_defaults,
    TokenizerConfig.mergeSpecC7, TokenizerConfig.defaultTC,
    TokenizerConfig.ignore_hex_eff, TokenizerConfig.identifier_leading_digits_eff,
    TokenizerConfig.identifier_leading_chars_eff,
    TokenizerConfig.identifier_include_digits_eff,
    TokenizerConfig.identifier_include_chars_eff]

theorem dict_update_defaults (d : DictConfig) :
    DictConfig.from_defaults.update d = DictConfig.mergeSpecC7 d := by
  simp [DictConfig.update, DictConfig.from_defaults, DictConfig.mergeSpecC7,
    DictConfig.defaultDC, DictConfig.locale_eff, Option.or_none]

theorem tokenizer_from_defaults_eq :
    TokenizerConfig.from_defaults = TokenizerConfig.mergeSpecC7 TokenizerConfig.defaultTC := by
  simp [TokenizerConfig.from_defaults, TokenizerConfig.mergeSpecC7,
    TokenizerConfig.defaultTC, TokenizerConfig.ignore_hex_eff,
    TokenizerConfig.identifier_leading_digits_eff,
    TokenizerConfig.identifier_leading_chars_eff,
    TokenizerConfig.identifier_include_digits_eff,
    TokenizerConfig.identifier_include_chars_eff]

theorem dict_from_defaults_eq :
    DictConfig.from_defaults = DictConfig.mergeSpecC7 DictConfig.defaultDC := by
  simp [DictConfig.from_defaults, DictConfig.mergeSpecC7, DictConfig.defaultDC,
    DictConfig.locale_eff]

theorem engine_update_defaults (ov : EngineConfig) :
    EngineConfig.from_defaults.update ov = EngineConfig.mergeSpecC7 ov := by
  obtain ⟨eb, ecfn, ecf, et, ed⟩ := ov
  simp only [EngineConfig.update, EngineConfig.from_defaults, EngineConfig.defaultEC,
    EngineConfig.mergeSpecC7, EngineConfig.binary_eff, EngineConfig.check_filename_eff,
    EngineConfig.check_file_eff, Option.getD_none, EngineConfig.mk.injEq]
  refine ⟨trivial, trivial, trivial, ?_, ?_⟩
  · cases et with
    | none =>
      dsimp only
      rw [tokenizer_from_defaults_eq]
      simp only [Option.getD_none]
    | some t =>
      dsimp only
      simp only [Option.getD_some]
      rw [tokenizer_update_defaults]
  · cases ed with
    | none =>
      dsimp only
      rw [dict_from_defaults_eq]
      simp only [Option.getD_none]
    | some d =>
      dsimp only
      simp only [Option.getD_some]
      rw [dict_update_defaults]

/-- C7 (counterexample): merging the fully-defaulted `Config` with the
overlay that only sets `files.ignore-files = false` does not produce
overlay-where-set-else-default fields: the merge resets
`files.ignore_dot` to unset (`none`) whereas the claim requires the
default (`some true`). -/
theorem C7_counterexample :
    ¬ (Config.from_defaults.update overlayC7 = Config.mergeSpecC7 overlayC7) := by
  intro h
  have hdot : (none : Option Bool) = some true := by
    calc (none : Option Bool)
        = (Config.from_defaults.update overlayC7).files.ignore_dot := rfl
      _ = (Config.mergeSpecC7 overlayC7).files.ignore_dot := by rw [h]
      _ = some true := rfl
  exact Option.noConfusion hdot

/-- C7 (amended): merging the fully-defaulted `Config` with any overlay
produces the overlay's explicitly set leaf fields where set and the
defaults everywhere else, except for the `Walk` cascade: an overlay that
sets `ignore_files` leaves `ignore_dot`/`ignore_vcs`/`ignore_global`/
`ignore_parent` unset rather than defaulted, and one that sets
`ignore_vcs` leaves `ignore_global` unset. -/
theorem C7_merge_defaults_amended (overlay : Config) :
    Config.from_defaults.update overlay = Config.mergeAmended overlay := by
  obtain ⟨wfiles, wdefault⟩ := overlay
  simp [Config.update, Config.from_defaults, Config.mergeAmended,
    walk_update_defaults, engine_update_defaults]

/-- C8 (counterexample): `Symbol::new` applied to the text `"ab!"` with
offset 5 succeeds, but the returned Symbol carries the extracted token
`"ab"`, not the given text `"ab!"` — refuting the claim that on success
the Symbol carries the given text. -/
theorem C8_counterexample :
    Symbol.new [97, 98, 33] 5 = .ok ⟨[97, 98], 5⟩ ∧ ([97, 98] : Str) ≠ [97, 98, 33] :=
  ⟨rfl, by decide⟩

/-- C8 (amended): `Symbol::new` succeeds exactly when re-extraction from
the given text yields a single token at byte offset 0; it fails with
`noneFound` when extraction yields nothing, with `paddingFound` when the
first token does not start at offset 0 (checked before the second-token
test), and with `moreThanOne` when a first token at offset 0 is followed
by another; on success the Symbol carries the extracted token's text
(equal to the given text only when the token covers the whole input) and
the caller-supplied offset. -/
theorem C8_new_characterization (t : Str) (off : Nat) :
    (Symbol.parse (utf8Encode t) = [] → Symbol.new t off = .error .noneFound) ∧
    (∀ s0 rest, Symbol.parse (utf8Encode t) = s0 :: rest → s0.offset ≠ 0 →
      Symbol.new t off = .error .paddingFound) ∧
    (∀ s0 s1 rest, Symbol.parse (utf8Encode t) = s0 :: s1 :: rest → s0.offset = 0 →
      Symbol.new t off = .error .moreThanOne) ∧
    (∀ s0, Symbol.parse (utf8Encode t) = [s0] → s0.offset = 0 →
      Symbol.new t off = .ok ⟨s0.token, off⟩) ∧
    ((∃ s, Symbol.new t off = .ok s) ↔
      ∃ s0, Symbol.parse (utf8Encode t) = [s0] ∧ s0.offset = 0) := by
  refine ⟨?_, ?_, ?_, ?_, ?_⟩
  · intro h
    simp [Symbol.new, h]
  · intro s0 rest h hoff
    simp only [Symbol.new]
    rw [h]
    dsimp only
    rw [if_pos hoff]
  · intro s0 s1 rest h hoff
    simp only [Symbol.new]
    rw [h]
    dsimp only
    rw [if_neg (by simp [hoff])]
    simp
  · intro s0 h hoff
    simp only [Symbol.new]
    rw [h]
    dsimp only
    rw [if_neg (by simp [hoff])]
    simp [hoff]
  · constructor
    · rintro ⟨s, hs⟩
      cases hp : Symbol.parse (utf8Encode t) with
      | nil => simp [Symbol.new, hp] at hs
      | cons s0 rest =>
        by_cases hoff : s0.offset = 0
        · cases rest with
          | nil => exact ⟨s0, rfl, hoff⟩
          | cons s1 rest2 =>
            rw [Symbol.new, hp] at hs
            simp [hoff] at hs
        · rw [Symbol.new, hp] at hs
          simp [hoff] at hs
    · rintro ⟨s0, hp, hoff⟩
      refine ⟨⟨s0.token, off⟩, ?_⟩
      simp only [Symbol.new]
      rw [hp]
      dsimp only
      rw [if_neg (by simp [hoff])]
      simp [hoff]

/-- Witness for C8 (amended): the characterization applied at concrete
inputs exercising all four outcomes — success on `"ab!"`, padding on
`" a"`, more-than-one on `"a b"`, none on `"!"`. -/
theorem C8_new_characterization_witness :
    Symbol.new [97, 98, 33] 7 = .ok ⟨[97, 98], 7⟩ ∧
    Symbol.new [32, 97] 0 = .error .paddingFound ∧
    Symbol.new [97, 32, 98] 0 = .error .moreThanOne ∧
    Symbol.new [33] 0 = .error .noneFound :=
  ⟨(C8_new_characterization [97, 98, 33] 7).2.2.2.1 ⟨[97, 98], 0⟩ (by decide) rfl,
    (C8_new_characterization [32, 97] 0).2.1 ⟨[97], 1⟩ [] (by decide) (by decide),
    (C8_new_characterization [97, 32, 98] 0).2.2.1 ⟨[97], 0⟩ ⟨[98], 2⟩ []
      (by decide) rfl,
    (C8_new_characterization [33] 0).1 (by decide)⟩

/-- Witness for C2: the invariants applied to the concrete buffer
`"A B"` — the pairwise ordering of its two Symbols, and the class
membership of the character of its first Symbol. -/
theorem C2_parse_invariants_witness :
    List.Pairwise
      (fun s t => s.offset + strBytes s.token ≤ t.offset ∧ s.offset < t.offset)
      (Symbol.parse [65, 32, 66]) ∧ inClass 65 = true :=
  ⟨(C2_parse_invariants [65, 32, 66]).1,
    (C2_parse_invariants [65, 32, 66]).2 ⟨[65], 0⟩ (by decide) 65 (by decide)⟩

/-- Witness for C9: the second conjunct applied to the buffer `"A B"` and
its first match. -/
theorem C9_invalid_runs_skipped_witness :
    (utf8Decode [65]).isSome = true :=
  (C9_invalid_runs_skipped [65, 32, 66]).2 (0, [65]) (by decide)

end Defenestrate
